import Mathlib

/-!
Verification of the retrieval-augmented document ranking subsystem of the
partselect-agent repository (`backend/app/rag/retrieval.py`).

The embedding models Python strings as `List Char`, real-valued scores as `ℚ`,
and the two external collaborators of `retrieve_documents` as parameters:
`query_collection` (the semantic-search interface, which may raise) becomes a
function into `Except`, and `_similarity` (a one-line wrapper over the Python
standard library's `difflib.SequenceMatcher.ratio`) becomes an abstract
similarity function `sim`.
-/

set_option maxHeartbeats 1000000

namespace Retrieval

/-- Shorthand turning a Lean string literal into the character list the
embedding works on. -/
def chars (s : String) : List Char := s.data

/-- The character class `[a-z0-9]` of the regex in `_keyword_bonus`
(`re.split(r"[^a-z0-9]+", query.lower())` keeps exactly these characters,
since the query was already lower-cased). -/
def isLowerAlnum (c : Char) : Bool :=
  (decide ('a' ≤ c) && decide (c ≤ 'z')) || (decide ('0' ≤ c) && decide (c ≤ '9'))

/-- Maximal runs of kept characters, accumulator-style: the non-empty pieces
of `re.split(r"[^a-z0-9]+", ·)`.  The empty pieces that `re.split` can also
produce are dropped here; they would be removed by the `len(t) > 3` filter
anyway. -/
def alnumRuns : List Char → List Char → List (List Char)
  | [], acc => if acc.isEmpty then [] else [acc.reverse]
  | c :: cs, acc =>
    if isLowerAlnum c then alnumRuns cs (c :: acc)
    else if acc.isEmpty then alnumRuns cs [] else acc.reverse :: alnumRuns cs []

/-- Python substring containment `needle in hay`. -/
def isSubstringOf (needle hay : List Char) : Bool :=
  hay.tails.any fun t => needle.isPrefixOf t

/-- The token list of `_keyword_bonus` (line 13):
`[t for t in re.split(r"[^a-z0-9]+", query.lower()) if len(t) > 3]`. -/
def queryTokens (query : List Char) : List (List Char) :=
  (alnumRuns (query.map Char.toLower) []).filter fun t => 3 < t.length

/-- The function `_keyword_bonus` (lines 12–18 of `retrieval.py`): `0.0` when no qualifying
token remains, otherwise the number of tokens — counted with multiplicity, as
`sum(1 for token in tokens if token in text_lower)` iterates the token list —
that occur in the lower-cased text, divided by the number of tokens. -/
def keywordBonus (query text : List Char) : ℚ :=
  let tokens := queryTokens query
  if tokens.isEmpty then 0
  else
    let textLower := text.map Char.toLower
    ((tokens.countP fun token => isSubstringOf token textLower : ℕ) : ℚ) /
      ((tokens.length : ℕ) : ℚ)

/-- The keyword bonus as claim C3 words it: the number of *distinct*
qualifying query tokens occurring in the lower-cased text, divided by the
total number of qualifying tokens. -/
def keywordBonusDistinct (query text : List Char) : ℚ :=
  let tokens := queryTokens query
  if tokens.isEmpty then 0
  else
    let textLower := text.map Char.toLower
    (((tokens.dedup.filter fun token => isSubstringOf token textLower).length : ℕ) : ℚ) /
      ((tokens.length : ℕ) : ℚ)

/-- The amended reference definition: qualifying tokens counted with
multiplicity (each occurrence of a repeated token counted separately). -/
def keywordBonusMult (query text : List Char) : ℚ :=
  let tokens := queryTokens query
  if tokens.isEmpty then 0
  else
    (((tokens.filter fun token => isSubstringOf token (text.map Char.toLower)).length : ℕ) : ℚ) /
      ((tokens.length : ℕ) : ℚ)

/-- A candidate after the gathering step of `retrieve_documents` (lines
32–39): a raw search hit plus `source_collection` and `keyword_bonus`.  The
`metadata` mapping is opaque to the ranker (only ever carried through) and is
not modelled. -/
structure Candidate where
  id : List Char
  text : List Char
  distance : Option ℚ
  source_collection : List Char
  keyword_bonus : ℚ
deriving DecidableEq

/-- Python truthiness of the `Optional[str]` argument `preferred_source`:
`None` and the empty string are falsy (lines 46 and 56 both test the bare
value). -/
def pyTruthy : Option (List Char) → Bool
  | none => false
  | some s => !s.isEmpty

/-- Line 46: `source_bias = 0.1 if preferred_source else 0.0`. -/
def sourceBias (preferred : Option (List Char)) : ℚ :=
  if pyTruthy preferred then 1/10 else 0

/-- The guard on line 56:
`preferred_source and item.get("source_collection") == preferred_source`. -/
def prefMatch : Option (List Char) → Candidate → Bool
  | none, _ => false
  | some p, c => !p.isEmpty && c.source_collection == p

/-- The base relevance score of the selection loop (lines 53–57): negated
distance with `1.0` substituted when the distance is absent, plus
`0.2 * keyword_bonus`, plus the source bias when the candidate matches the
preferred source. -/
def baseScore (preferred : Option (List Char)) (c : Candidate) : ℚ :=
  -(c.distance.getD 1) + (2/10) * c.keyword_bonus +
    (if prefMatch preferred c then sourceBias preferred else 0)

/-- Greatest element of a list of scores, `0` for the empty list: the
`max(...)` on line 61 guarded by `if selected`. -/
def maxQ : List ℚ → ℚ
  | [] => 0
  | x :: xs => xs.foldl max x

/-- The `redundancy` value (lines 59–61): greatest similarity between the candidate's
text and the text of every already-selected candidate, `0.0` when nothing is
selected yet. -/
def redundancy (sim : List Char → List Char → ℚ) (selected : List Candidate)
    (c : Candidate) : ℚ :=
  maxQ (selected.map fun s => sim c.text s.text)

/-- Line 63: `mmr_score = lambda_mult * base_score - (1 - lambda_mult) *
redundancy` with `lambda_mult = 0.7` (line 45). -/
def mmrScore (sim : List Char → List Char → ℚ) (preferred : Option (List Char))
    (selected : List Candidate) (c : Candidate) : ℚ :=
  (7/10) * baseScore preferred c - (1 - 7/10) * redundancy sim selected c

/-- The inner `for` loop (lines 50–66): scan `remaining` left to right,
replacing the running best only when a candidate's score strictly exceeds it
(`best_score is None or mmr_score > best_score`), so the first of several
equally-scored candidates wins. -/
def bestAux (score : Candidate → ℚ) : Option Candidate → List Candidate → Option Candidate
  | best, [] => best
  | none, c :: cs => bestAux score (some c) cs
  | some b, c :: cs =>
    if score c > score b then bestAux score (some c) cs else bestAux score (some b) cs

/-- One scan of the `for` loop starting from `best = None`. -/
def bestCand (score : Candidate → ℚ) (remaining : List Candidate) : Option Candidate :=
  bestAux score none remaining

/-- The `while` loop of `retrieve_documents` (lines 49–71), fuelled by the
length of the initial pool (each iteration removes exactly one element from
`remaining`, so that much fuel never runs out first): while `remaining` is
non-empty and fewer than `top_k` candidates are selected, move the
best-scoring candidate from `remaining` to `selected`.  `remaining.remove`
deletes the first list element equal to `best`, which `List.erase` mirrors. -/
def selLoopFuel (sim : List Char → List Char → ℚ) (preferred : Option (List Char))
    (top_k : ℤ) : Nat → List Candidate → List Candidate → List Candidate
  | 0, selected, _ => selected
  | fuel + 1, selected, remaining =>
    if remaining.isEmpty then selected
    else if (selected.length : ℤ) < top_k then
      match bestCand (mmrScore sim preferred selected) remaining with
      | none => selected
      | some best =>
          selLoopFuel sim preferred top_k fuel (selected ++ [best]) (remaining.erase best)
    else selected

/-- Lines 41–73 of `retrieve_documents`: the ranking stage on a gathered
candidate pool (empty pool short-circuits to the empty result on line 42). -/
def retrieveSelection (sim : List Char → List Char → ℚ) (preferred : Option (List Char))
    (top_k : ℤ) (candidates : List Candidate) : List Candidate :=
  if candidates.isEmpty then []
  else selLoopFuel sim preferred top_k candidates.length [] candidates

/-- A raw hit from the external semantic-search collaborator
`query_collection` (`rag_query.py` returns dictionaries with `id`, `text`,
`metadata`, `distance`); `metadata` is opaque to the ranker and not
modelled, and `distance` may be absent. -/
structure RawDoc where
  id : List Char
  text : List Char
  distance : Option ℚ
deriving DecidableEq

/-- Lines 35–38: copy a raw hit and annotate it with its collection and its
keyword bonus. -/
def annotate (query collection : List Char) (doc : RawDoc) : Candidate :=
  { id := doc.id, text := doc.text, distance := doc.distance,
    source_collection := collection, keyword_bonus := keywordBonus query doc.text }

/-- The gathering loop (lines 32–39): query each collection in order and
append its annotated hits.  `retrieve_documents` installs no exception
handler, so a failure of the collaborator aborts the whole call, which the
`Except` monad mirrors. -/
def gather {ε : Type} (query : List Char) (search : List Char → Except ε (List RawDoc)) :
    List (List Char) → Except ε (List Candidate)
  | [] => .ok []
  | col :: cols =>
    match search col with
    | .error e => .error e
    | .ok docs =>
      match gather query search cols with
      | .error e => .error e
      | .ok rest => .ok (docs.map (annotate query col) ++ rest)

/-- The function `retrieve_documents` (lines 25–73), with the semantic-search collaborator
`search` (the code calls `query_collection` with `n_results = top_k`) and the
text-similarity measure `sim` (the code's `_similarity`, a one-line wrapper
over `difflib.SequenceMatcher(None, a, b).ratio()`) as parameters. -/
def retrieveDocuments {ε : Type} (sim : List Char → List Char → ℚ) (query : List Char)
    (top_k : ℤ) (preferred : Option (List Char)) (collections : List (List Char))
    (search : List Char → Except ε (List RawDoc)) : Except ε (List Candidate) :=
  match gather query search collections with
  | .error e => .error e
  | .ok candidates => .ok (retrieveSelection sim preferred top_k candidates)

end Retrieval

namespace Retrieval

/-- C3 counterexample: on the query `"water pump water"` (token list
`[water, pump, water]`) and text `"water"`, the code returns `2/3` — the
repeated token `water` is counted twice — while the claim's reference
definition (distinct matching tokens over total qualifying tokens) gives
`1/3`. -/
theorem C3_counterexample :
    keywordBonus (chars "water pump water") (chars "water") = 2/3 ∧
    keywordBonusDistinct (chars "water pump water") (chars "water") = 1/3 ∧
    keywordBonus (chars "water pump water") (chars "water") ≠
      keywordBonusDistinct (chars "water pump water") (chars "water") := by
  have hne : (queryTokens (chars "water pump water")).isEmpty = false := by decide
  have hc : ((queryTokens (chars "water pump water")).countP
      fun token => isSubstringOf token ((chars "water").map Char.toLower)) = 2 := by decide
  have hd : ((queryTokens (chars "water pump water")).dedup.filter
      fun token => isSubstringOf token ((chars "water").map Char.toLower)).length = 1 := by
    decide
  have hl : (queryTokens (chars "water pump water")).length = 3 := by decide
  have h1 : keywordBonus (chars "water pump water") (chars "water") = 2/3 := by
    simp only [keywordBonus, hne, Bool.false_eq_true, if_false, hc, hl]
    norm_num
  have h2 : keywordBonusDistinct (chars "water pump water") (chars "water") = 1/3 := by
    simp only [keywordBonusDistinct, hne, Bool.false_eq_true, if_false, hd, hl]
    norm_num
  refine ⟨h1, h2, ?_⟩
  rw [h1, h2]
  norm_num

/-- C3 (amended): for every query and text, `_keyword_bonus` equals the
reference definition in which qualifying query tokens are counted with
multiplicity: (number of token occurrences whose token appears as a substring
of the lower-cased text) / (total qualifying tokens), and `0.0` when no
qualifying token remains. -/
theorem C3_keyword_bonus_multiplicity (query text : List Char) :
    keywordBonus query text = keywordBonusMult query text := by
  simp [keywordBonus, keywordBonusMult, List.countP_eq_length_filter]

/-- C9: the keyword bonus always lies in `[0, 1]`, and is exactly `0` whenever
no query token longer than 3 characters survives tokenization. -/
theorem C9_keyword_bonus_bounds (query text : List Char) :
    0 ≤ keywordBonus query text ∧ keywordBonus query text ≤ 1 ∧
      (queryTokens query = [] → keywordBonus query text = 0) := by
  unfold keywordBonus
  by_cases h : (queryTokens query).isEmpty
  · simp [h]
  · rw [if_neg h]
    have hne : queryTokens query ≠ [] := by
      simpa [List.isEmpty_iff] using h
    have hlen : 0 < (queryTokens query).length := List.length_pos.mpr hne
    have hlenQ : (0 : ℚ) < ((queryTokens query).length : ℚ) := by
      exact_mod_cast hlen
    refine ⟨div_nonneg (by positivity) (le_of_lt hlenQ), ?_, fun hc => absurd hc hne⟩
    rw [div_le_one hlenQ]
    exact_mod_cast List.countP_le_length _

/-- Scanning with a running best `b` returns some result `r`; either the
running best survives and every scanned candidate scores at most it, or `r`
is the first scanned candidate attaining the greatest score: everything
before it (and the running best) scores strictly less, everything after it
scores at most it. -/
theorem bestAux_first_max (score : Candidate → ℚ) :
    ∀ (l : List Candidate) (b : Candidate),
      ∃ r, bestAux score (some b) l = some r ∧
        ((r = b ∧ ∀ c ∈ l, score c ≤ score b) ∨
          (∃ l₁ l₂, l = l₁ ++ r :: l₂ ∧ score b < score r ∧
            (∀ c ∈ l₁, score c < score r) ∧ (∀ c ∈ l₂, score c ≤ score r))) := by
  intro l
  induction l with
  | nil =>
      intro b
      exact ⟨b, rfl, Or.inl ⟨rfl, by simp⟩⟩
  | cons c cs ih =>
      intro b
      by_cases hcb : score c > score b
      · obtain ⟨r, hr, hcase⟩ := ih c
        refine ⟨r, ?_, ?_⟩
        · simp only [bestAux, if_pos hcb]
          exact hr
        · rcases hcase with ⟨hrc, hle⟩ | ⟨l₁, l₂, hsplit, hlt, h1, h2⟩
          · subst hrc
            exact Or.inr ⟨[], cs, by simp, hcb, by simp, hle⟩
          · refine Or.inr ⟨c :: l₁, l₂, by rw [hsplit]; rfl, lt_trans hcb hlt, ?_, h2⟩
            intro x hx
            rcases List.mem_cons.mp hx with hxc | hxl
            · subst hxc; exact hlt
            · exact h1 x hxl
      · obtain ⟨r, hr, hcase⟩ := ih b
        refine ⟨r, ?_, ?_⟩
        · simp only [bestAux, if_neg hcb]
          exact hr
        · rcases hcase with ⟨hrb, hle⟩ | ⟨l₁, l₂, hsplit, hlt, h1, h2⟩
          · subst hrb
            refine Or.inl ⟨rfl, ?_⟩
            intro x hx
            rcases List.mem_cons.mp hx with hxc | hxl
            · subst hxc; exact not_lt.mp hcb
            · exact hle x hxl
          · refine Or.inr ⟨c :: l₁, l₂, by rw [hsplit]; rfl, hlt, ?_, h2⟩
            intro x hx
            rcases List.mem_cons.mp hx with hxc | hxl
            · subst hxc; exact lt_of_le_of_lt (not_lt.mp hcb) hlt
            · exact h1 x hxl

/-- On a non-empty remaining list the scan returns the first candidate
attaining the strictly greatest score. -/
theorem bestCand_first_max (score : Candidate → ℚ) (c : Candidate) (cs : List Candidate) :
    ∃ r l₁ l₂, bestCand score (c :: cs) = some r ∧ c :: cs = l₁ ++ r :: l₂ ∧
      (∀ x ∈ l₁, score x < score r) ∧ (∀ x ∈ l₂, score x ≤ score r) := by
  obtain ⟨r, hr, hcase⟩ := bestAux_first_max score cs c
  have hbc : bestCand score (c :: cs) = some r := by
    simp only [bestCand, bestAux]
    exact hr
  rcases hcase with ⟨hrc, hle⟩ | ⟨l₁, l₂, hsplit, hlt, h1, h2⟩
  · subst hrc
    exact ⟨r, [], cs, hbc, by simp, by simp, hle⟩
  · refine ⟨r, c :: l₁, l₂, hbc, by rw [hsplit]; rfl, ?_, h2⟩
    intro x hx
    rcases List.mem_cons.mp hx with hxc | hxl
    · subst hxc; exact hlt
    · exact h1 x hxl

/-- The scan result is the running best or a scanned candidate. -/
theorem bestAux_mem (score : Candidate → ℚ) :
    ∀ (l : List Candidate) (b r : Candidate),
      bestAux score (some b) l = some r → r = b ∨ r ∈ l := by
  intro l
  induction l with
  | nil =>
      intro b r h
      exact Or.inl (Option.some_injective _ h).symm
  | cons c cs ih =>
      intro b r h
      by_cases hcb : score c > score b
      · simp only [bestAux, if_pos hcb] at h
        rcases ih c r h with hrc | hrl
        · exact Or.inr (hrc ▸ List.mem_cons_self c cs)
        · exact Or.inr (List.mem_cons_of_mem c hrl)
      · simp only [bestAux, if_neg hcb] at h
        rcases ih b r h with hrb | hrl
        · exact Or.inl hrb
        · exact Or.inr (List.mem_cons_of_mem c hrl)

/-- The selected best is drawn from the remaining list. -/
theorem bestCand_mem (score : Candidate → ℚ) (l : List Candidate) (r : Candidate)
    (h : bestCand score l = some r) : r ∈ l := by
  cases l with
  | nil => simp [bestCand, bestAux] at h
  | cons c cs =>
      simp only [bestCand, bestAux] at h
      rcases bestAux_mem score cs c r h with hrc | hrl
      · exact hrc ▸ List.mem_cons_self c cs
      · exact List.mem_cons_of_mem c hrl

/-- Every candidate scanned scores at most the scan's result. -/
theorem bestCand_le (score : Candidate → ℚ) (l : List Candidate) (b : Candidate)
    (hbc : bestCand score l = some b) : ∀ x ∈ l, score x ≤ score b := by
  cases l with
  | nil => simp [bestCand, bestAux] at hbc
  | cons c cs =>
      obtain ⟨r, l₁, l₂, hr, hsplit, h1, h2⟩ := bestCand_first_max score c cs
      have hrb : r = b := Option.some_injective _ (hr ▸ hbc)
      subst hrb
      intro x hx
      rw [hsplit] at hx
      rcases List.mem_append.mp hx with hx1 | hx2
      · exact le_of_lt (h1 x hx1)
      · rcases List.mem_cons.mp hx2 with hxr | hxl
        · exact le_of_eq (congrArg score hxr)
        · exact h2 x hxl

/-- One iteration of the `while` loop, as an equation: when the loop guard
holds and the scan returns `best`, the loop appends `best` to `selected` and
erases it from `remaining`. -/
theorem selLoopFuel_step (sim : List Char → List Char → ℚ) (preferred : Option (List Char))
    (top_k : ℤ) (fuel : Nat) (sel rem : List Candidate) (b : Candidate)
    (hre : rem.isEmpty = false) (hk : (sel.length : ℤ) < top_k)
    (hbc : bestCand (mmrScore sim preferred sel) rem = some b) :
    selLoopFuel sim preferred top_k (fuel + 1) sel rem =
      selLoopFuel sim preferred top_k fuel (sel ++ [b]) (rem.erase b) := by
  simp only [selLoopFuel, hre, Bool.false_eq_true, if_false, if_pos hk, hbc]

/-- The loop only ever appends: its result extends `selected`. -/
theorem selLoopFuel_extends (sim : List Char → List Char → ℚ)
    (preferred : Option (List Char)) (top_k : ℤ) :
    ∀ (fuel : Nat) (sel rem : List Candidate),
      ∃ t, selLoopFuel sim preferred top_k fuel sel rem = sel ++ t := by
  intro fuel
  induction fuel with
  | zero => intro sel rem; exact ⟨[], by simp [selLoopFuel]⟩
  | succ fuel ih =>
      intro sel rem
      by_cases hre : rem.isEmpty
      · exact ⟨[], by simp [selLoopFuel, hre]⟩
      · by_cases hk : (sel.length : ℤ) < top_k
        · cases hbc : bestCand (mmrScore sim preferred sel) rem with
          | none =>
              refine ⟨[], ?_⟩
              simp only [selLoopFuel, hre, Bool.false_eq_true, if_false, if_pos hk, hbc,
                List.append_nil]
          | some b =>
              obtain ⟨t, ht⟩ := ih (sel ++ [b]) (rem.erase b)
              refine ⟨b :: t, ?_⟩
              rw [selLoopFuel_step sim preferred top_k fuel sel rem b
                (Bool.eq_false_iff.mpr hre) hk hbc, ht, List.append_assoc]
              rfl
        · exact ⟨[], by simp [selLoopFuel, hre, hk]⟩

/-- The loop's result is, up to order, drawn without repetition from
`selected ++ remaining`: the no-duplication invariant after every
iteration. -/
theorem selLoopFuel_subperm (sim : List Char → List Char → ℚ)
    (preferred : Option (List Char)) (top_k : ℤ) :
    ∀ (fuel : Nat) (sel rem : List Candidate),
      List.Subperm (selLoopFuel sim preferred top_k fuel sel rem) (sel ++ rem) := by
  intro fuel
  induction fuel with
  | zero =>
      intro sel rem
      exact (List.sublist_append_left sel rem).subperm
  | succ fuel ih =>
      intro sel rem
      by_cases hre : rem.isEmpty
      · simp only [selLoopFuel, hre, if_true]
        exact (List.sublist_append_left sel rem).subperm
      · by_cases hk : (sel.length : ℤ) < top_k
        · cases hbc : bestCand (mmrScore sim preferred sel) rem with
          | none =>
              simp only [selLoopFuel, hre, Bool.false_eq_true, if_false, if_pos hk, hbc]
              exact (List.sublist_append_left sel rem).subperm
          | some b =>
              rw [selLoopFuel_step sim preferred top_k fuel sel rem b
                (Bool.eq_false_iff.mpr hre) hk hbc]
              have hb : b ∈ rem := bestCand_mem _ _ _ hbc
              have hperm : List.Perm ((sel ++ [b]) ++ rem.erase b) (sel ++ rem) := by
                rw [List.append_assoc]
                exact List.Perm.append_left sel (List.perm_cons_erase hb).symm
              exact (ih (sel ++ [b]) (rem.erase b)).trans hperm.subperm
        · simp only [selLoopFuel, hre, Bool.false_eq_true, if_false, if_neg hk]
          exact (List.sublist_append_left sel rem).subperm

/-- The loop never grows `selected` beyond `top_k` (taken as a natural
number): its result has length at most `max selected.length top_k.toNat`. -/
theorem selLoopFuel_length_le (sim : List Char → List Char → ℚ)
    (preferred : Option (List Char)) (top_k : ℤ) :
    ∀ (fuel : Nat) (sel rem : List Candidate),
      (selLoopFuel sim preferred top_k fuel sel rem).length ≤
        max sel.length top_k.toNat := by
  intro fuel
  induction fuel with
  | zero =>
      intro sel rem
      simp only [selLoopFuel]
      exact le_max_left _ _
  | succ fuel ih =>
      intro sel rem
      by_cases hre : rem.isEmpty
      · simp only [selLoopFuel, hre, if_true]
        exact le_max_left _ _
      · by_cases hk : (sel.length : ℤ) < top_k
        · cases hbc : bestCand (mmrScore sim preferred sel) rem with
          | none =>
              simp only [selLoopFuel, hre, Bool.false_eq_true, if_false, if_pos hk, hbc]
              exact le_max_left _ _
          | some b =>
              rw [selLoopFuel_step sim preferred top_k fuel sel rem b
                (Bool.eq_false_iff.mpr hre) hk hbc]
              have hK : sel.length + 1 ≤ top_k.toNat := by omega
              have h1 := ih (sel ++ [b]) (rem.erase b)
              rw [List.length_append, List.length_singleton] at h1
              rw [Nat.max_eq_right hK] at h1
              exact h1.trans (le_max_right _ _)
        · simp only [selLoopFuel, hre, Bool.false_eq_true, if_false, if_neg hk]
          exact le_max_left _ _

/-- Nodup of an image list transfers down a sub-permutation. -/
theorem nodup_map_of_subperm {α β : Type} (f : α → β) {l₁ l₂ : List α}
    (h : List.Subperm l₁ l₂) (hn : (l₂.map f).Nodup) : (l₁.map f).Nodup := by
  obtain ⟨l, hperm, hsub⟩ := h
  have h1 : (l.map f).Nodup := (hsub.map f).nodup hn
  exact ((hperm.map f).nodup_iff).mp h1

/-- C1: at every iteration of the selection loop (any fuel, any selected and
non-empty remaining list with the `top_k` bound not yet reached), the loop
moves to `selected` exactly the remaining candidate with the strictly
greatest `mmr_score` — everything earlier in iteration order scores strictly
less (so ties go to the first encountered), everything later scores at most
it — and removes it from `remaining`. -/
theorem C1_selection_step (sim : List Char → List Char → ℚ)
    (preferred : Option (List Char)) (top_k : ℤ) (fuel : Nat)
    (selected remaining : List Candidate)
    (hne : remaining ≠ []) (hk : (selected.length : ℤ) < top_k) :
    ∃ best l₁ l₂,
      remaining = l₁ ++ best :: l₂ ∧
      (∀ c ∈ l₁, mmrScore sim preferred selected c < mmrScore sim preferred selected best) ∧
      (∀ c ∈ l₂, mmrScore sim preferred selected c ≤ mmrScore sim preferred selected best) ∧
      selLoopFuel sim preferred top_k (fuel + 1) selected remaining =
        selLoopFuel sim preferred top_k fuel (selected ++ [best]) (remaining.erase best) := by
  cases remaining with
  | nil => exact absurd rfl hne
  | cons c cs =>
      obtain ⟨r, l₁, l₂, hbc, hsplit, h1, h2⟩ :=
        bestCand_first_max (mmrScore sim preferred selected) c cs
      refine ⟨r, l₁, l₂, hsplit, h1, h2, ?_⟩
      simp only [selLoopFuel, List.isEmpty_cons, Bool.false_eq_true, if_false, if_pos hk, hbc]

/-- A fixed similarity measure used to instantiate witnesses (the theorems
hold for every `sim`). -/
def simZero : List Char → List Char → ℚ := fun _ _ => 0

/-- A concrete candidate used in witnesses. -/
def candA : Candidate :=
  { id := chars "a", text := chars "dishwasher leaking water inlet valve",
    distance := some (1/10), source_collection := chars "repairs", keyword_bonus := 0 }

/-- C1 witness: one step on the one-candidate pool `[candA]` with
`top_k = 1`. -/
theorem C1_selection_step_witness :
    ∃ best l₁ l₂,
      [candA] = l₁ ++ best :: l₂ ∧
      (∀ c ∈ l₁, mmrScore simZero none [] c < mmrScore simZero none [] best) ∧
      (∀ c ∈ l₂, mmrScore simZero none [] c ≤ mmrScore simZero none [] best) ∧
      selLoopFuel simZero none 1 1 [] [candA] =
        selLoopFuel simZero none 1 0 ([] ++ [best]) ([candA].erase best) :=
  C1_selection_step simZero none 1 0 [] [candA] (by simp) (by simp)

/-- C9 witness: the query `"fix my tap"` has no token longer than 3
characters, so the bonus is `0`, within `[0, 1]`. -/
theorem C9_keyword_bonus_bounds_witness :
    0 ≤ keywordBonus (chars "fix my tap") (chars "the sink is leaking") ∧
      keywordBonus (chars "fix my tap") (chars "the sink is leaking") ≤ 1 ∧
      keywordBonus (chars "fix my tap") (chars "the sink is leaking") = 0 := by
  obtain ⟨h1, h2, h3⟩ :=
    C9_keyword_bonus_bounds (chars "fix my tap") (chars "the sink is leaking")
  exact ⟨h1, h2, h3 (by decide)⟩

/-- A candidate with id `"x"` from the repairs collection. -/
def cXr : Candidate :=
  { id := chars "x", text := chars "door seal replacement guide",
    distance := some 0, source_collection := chars "repairs", keyword_bonus := 0 }

/-- A candidate with the same id `"x"` but from the blogs collection — the
spec allows ids to repeat across collections and the gathering step does not
deduplicate. -/
def cXb : Candidate :=
  { id := chars "x", text := chars "eco mode cycle explanation",
    distance := some 1, source_collection := chars "blogs", keyword_bonus := 0 }

/-- C4 counterexample: on a pool whose two candidates share the id `"x"`
(possible when the same id occurs in two collections), the selection loop
selects both, so the ids of the returned list are not pairwise distinct. -/
theorem C4_counterexample :
    retrieveSelection simZero none 2 [cXr, cXb] = [cXr, cXb] ∧
    ¬ ((retrieveSelection simZero none 2 [cXr, cXb]).map Candidate.id).Nodup := by
  have h1 : bestCand (mmrScore simZero none []) [cXr, cXb] = some cXr := by
    simp only [bestCand, bestAux]
    rw [if_neg]
    norm_num [mmrScore, baseScore, redundancy, maxQ, prefMatch, simZero, cXr, cXb]
  have h2 : bestCand (mmrScore simZero none [cXr]) [cXb] = some cXb := by
    simp only [bestCand, bestAux]
  have hres : retrieveSelection simZero none 2 [cXr, cXb] = [cXr, cXb] := by
    have s1 := selLoopFuel_step simZero none 2 1 [] [cXr, cXb] cXr rfl (by decide) h1
    have s2 := selLoopFuel_step simZero none 2 0 [cXr] [cXb] cXb rfl (by decide) h2
    rw [List.erase_cons_head] at s1
    rw [List.erase_cons_head] at s2
    simp only [List.nil_append] at s1
    norm_num at s1 s2
    simp only [retrieveSelection, List.isEmpty_cons, Bool.false_eq_true, if_false,
      List.length_cons, List.length_nil]
    norm_num
    rw [s1, s2]
    simp only [selLoopFuel]
  refine ⟨hres, ?_⟩
  rw [hres]
  decide

/-- C4 (amended): the output never uses a pool element more than once — the
result is a sub-permutation of the pool, so every value's multiplicity in the
output is at most its multiplicity in the pool — and the returned ids are
pairwise distinct *provided* the pool's ids are pairwise distinct (which the
code does not enforce across collections); the sub-permutation invariant
holds for the loop state after every iteration. -/
theorem C4_no_duplicates (sim : List Char → List Char → ℚ)
    (preferred : Option (List Char)) (top_k : ℤ) (pool : List Candidate) :
    (∀ v : Candidate,
      (retrieveSelection sim preferred top_k pool).count v ≤ pool.count v) ∧
    ((pool.map Candidate.id).Nodup →
      ((retrieveSelection sim preferred top_k pool).map Candidate.id).Nodup) ∧
    (∀ (fuel : Nat) (selected remaining : List Candidate),
      List.Subperm (selLoopFuel sim preferred top_k fuel selected remaining)
        (selected ++ remaining)) := by
  have hsub : List.Subperm (retrieveSelection sim preferred top_k pool) pool := by
    cases pool with
    | nil => simp [retrieveSelection]
    | cons c cs =>
        have h := selLoopFuel_subperm sim preferred top_k (c :: cs).length [] (c :: cs)
        simpa [retrieveSelection] using h
  exact ⟨fun v => hsub.count_le v, fun hn => nodup_map_of_subperm _ hsub hn,
    selLoopFuel_subperm sim preferred top_k⟩

/-- C4 witness: on the one-candidate pool `[candA]` the returned ids are
pairwise distinct and multiplicities are bounded by the pool's. -/
theorem C4_no_duplicates_witness :
    ((retrieveSelection simZero none 1 [candA]).map Candidate.id).Nodup ∧
    (∀ v : Candidate, (retrieveSelection simZero none 1 [candA]).count v ≤
      [candA].count v) := by
  obtain ⟨h1, h2, h3⟩ := C4_no_duplicates simZero none 1 [candA]
  exact ⟨h2 (by decide), h1⟩

/-- C6: for a positive `top_k` the result has length at most
`min pool.length top_k`, and the empty pool yields the empty result (the
function is total, so no error is possible). -/
theorem C6_output_bound (sim : List Char → List Char → ℚ)
    (preferred : Option (List Char)) (top_k : ℤ) (pool : List Candidate)
    (hpos : 0 < top_k) :
    (retrieveSelection sim preferred top_k pool).length ≤
      min pool.length top_k.toNat ∧
    retrieveSelection sim preferred top_k [] = [] := by
  refine ⟨?_, rfl⟩
  cases pool with
  | nil => simp [retrieveSelection]
  | cons c cs =>
      have h1 := selLoopFuel_subperm sim preferred top_k (c :: cs).length [] (c :: cs)
      have h2 := selLoopFuel_length_le sim preferred top_k (c :: cs).length [] (c :: cs)
      have hres : retrieveSelection sim preferred top_k (c :: cs) =
          selLoopFuel sim preferred top_k (c :: cs).length [] (c :: cs) := by
        simp [retrieveSelection]
      rw [hres]
      refine le_min ?_ ?_
      · simpa using h1.length_le
      · simpa using h2

/-- C6 witness at `top_k = 1` and a one-candidate pool. -/
theorem C6_output_bound_witness :
    (retrieveSelection simZero none 1 [candA]).length ≤
      min [candA].length (1 : ℤ).toNat ∧
    retrieveSelection simZero none 1 [] = [] :=
  C6_output_bound simZero none 1 [candA] (by decide)

/-- C10: for `top_k ≤ 0` the selection loop never runs (its guard
`len(selected) < top_k` is false immediately), so the result is empty for
every pool. -/
theorem C10_nonpositive_topk (sim : List Char → List Char → ℚ)
    (preferred : Option (List Char)) (top_k : ℤ) (pool : List Candidate)
    (h : top_k ≤ 0) : retrieveSelection sim preferred top_k pool = [] := by
  cases pool with
  | nil => rfl
  | cons c cs =>
      have hk : ¬ ((0 : ℤ) < top_k) := by omega
      simp [retrieveSelection, selLoopFuel, hk]

/-- C10 witness: `top_k = 0` on a non-empty pool returns the empty list. -/
theorem C10_nonpositive_topk_witness :
    retrieveSelection simZero none 0 [candA] = [] :=
  C10_nonpositive_topk simZero none 0 [candA] (by decide)

/-- C5: the ranking pipeline is deterministic — two calls with the same
query, `top_k`, preferred source, collections and a pointwise-identical
search collaborator return identical results (there is no randomness
anywhere in gathering, scoring or selection). -/
theorem C5_determinism {ε : Type} (sim : List Char → List Char → ℚ)
    (query : List Char) (top_k : ℤ) (preferred : Option (List Char))
    (collections : List (List Char))
    (search₁ search₂ : List Char → Except ε (List RawDoc))
    (h : ∀ c, search₁ c = search₂ c) :
    retrieveDocuments sim query top_k preferred collections search₁ =
      retrieveDocuments sim query top_k preferred collections search₂ := by
  have hg : ∀ cols, gather query search₁ cols = gather query search₂ cols := by
    intro cols
    induction cols with
    | nil => rfl
    | cons col cs ih => simp only [gather, h col, ih]
  simp only [retrieveDocuments, hg]

/-- A search collaborator returning no candidates, for witnesses. -/
def searchEmpty : List Char → Except Unit (List RawDoc) := fun _ => .ok []

/-- C5 witness: two pointwise-equal collaborators give identical output. -/
theorem C5_determinism_witness :
    retrieveDocuments simZero (chars "dishwasher leaking") 6 none
        [chars "repairs", chars "blogs"] searchEmpty =
      retrieveDocuments simZero (chars "dishwasher leaking") 6 none
        [chars "repairs", chars "blogs"] (fun c => searchEmpty c) :=
  C5_determinism simZero (chars "dishwasher leaking") 6 none
    [chars "repairs", chars "blogs"] searchEmpty (fun c => searchEmpty c)
    (fun _ => rfl)

/-- If the collaborator fails on some collection of the list, gathering
produces an error (the first one encountered). -/
theorem gather_error {ε : Type} (query : List Char)
    (search : List Char → Except ε (List RawDoc)) :
    ∀ collections : List (List Char),
      (∃ c ∈ collections, ∃ e, search c = .error e) →
      ∃ e, gather query search collections = .error e := by
  intro cols
  induction cols with
  | nil => intro h; simp at h
  | cons col cs ih =>
      intro h
      cases hcol : search col with
      | error e₁ => exact ⟨e₁, by simp only [gather, hcol]⟩
      | ok docs =>
          obtain ⟨c, hcmem, e, he⟩ := h
          have hc : c ∈ cs := by
            rcases List.mem_cons.mp hcmem with rfl | h2
            · rw [hcol] at he
              exact absurd he (by simp)
            · exact h2
          obtain ⟨e₂, hg⟩ := ih ⟨c, hc, e, he⟩
          exact ⟨e₂, by simp only [gather, hcol, hg]⟩

/-- C8: when the search collaborator raises for any collection in the list,
`retrieve_documents` propagates the error: the whole call returns that error
and no candidate list — not even a partial one from collections queried
earlier — is produced. -/
theorem C8_error_propagation {ε : Type} (sim : List Char → List Char → ℚ)
    (query : List Char) (top_k : ℤ) (preferred : Option (List Char))
    (collections : List (List Char)) (search : List Char → Except ε (List RawDoc))
    (h : ∃ c ∈ collections, ∃ e, search c = .error e) :
    ∃ e, retrieveDocuments sim query top_k preferred collections search = .error e := by
  obtain ⟨e, hg⟩ := gather_error query search collections h
  exact ⟨e, by simp only [retrieveDocuments, hg]⟩

/-- A search collaborator failing on every collection, for the C8 witness. -/
def searchFail : List Char → Except Nat (List RawDoc) := fun _ => .error 7

/-- C8 witness: a collaborator failing on the repairs collection makes the
whole call return its error. -/
theorem C8_error_propagation_witness :
    ∃ e, retrieveDocuments simZero (chars "dishwasher leaking") 6 none
      [chars "repairs", chars "blogs"] searchFail = .error e :=
  C8_error_propagation simZero (chars "dishwasher leaking") 6 none
    [chars "repairs", chars "blogs"] searchFail
    ⟨chars "repairs", by simp, 7, rfl⟩

/-- If `cP` strictly dominates `cN` in `mmr_score` against every possible
selected set, then whenever `cN` shows up in the loop's result, `cP` shows up
at an earlier position (no occurrence of `cN` precedes it). -/
theorem selLoop_pref_before (sim : List Char → List Char → ℚ)
    (preferred : Option (List Char)) (top_k : ℤ) (cP cN : Candidate)
    (hdom : ∀ s, mmrScore sim preferred s cN < mmrScore sim preferred s cP) :
    ∀ (fuel : Nat) (sel rem : List Candidate), cP ∈ rem → cN ∉ sel →
      cN ∈ selLoopFuel sim preferred top_k fuel sel rem →
      ∃ l₁ l₂, selLoopFuel sim preferred top_k fuel sel rem = l₁ ++ cP :: l₂ ∧
        cN ∉ l₁ := by
  intro fuel
  induction fuel with
  | zero =>
      intro sel rem hP hNs hNr
      simp only [selLoopFuel] at hNr
      exact absurd hNr hNs
  | succ fuel ih =>
      intro sel rem hP hNs hNr
      by_cases hre : rem.isEmpty
      · rw [List.isEmpty_iff] at hre
        exact absurd (hre ▸ hP) (List.not_mem_nil cP)
      · by_cases hk : (sel.length : ℤ) < top_k
        · cases hbc : bestCand (mmrScore sim preferred sel) rem with
          | none =>
              simp only [selLoopFuel, hre, Bool.false_eq_true, if_false, if_pos hk,
                hbc] at hNr
              exact absurd hNr hNs
          | some b =>
              rw [selLoopFuel_step sim preferred top_k fuel sel rem b
                (Bool.eq_false_iff.mpr hre) hk hbc] at hNr ⊢
              by_cases hbP : b = cP
              · subst hbP
                obtain ⟨t, ht⟩ :=
                  selLoopFuel_extends sim preferred top_k fuel (sel ++ [b]) (rem.erase b)
                refine ⟨sel, t, ?_, hNs⟩
                rw [ht, List.append_assoc]
                rfl
              · have hble := bestCand_le (mmrScore sim preferred sel) rem b hbc cP hP
                have hbN : b ≠ cN := by
                  intro hbn
                  subst hbn
                  exact absurd hble (not_le.mpr (hdom sel))
                apply ih (sel ++ [b]) (rem.erase b)
                · exact (List.mem_erase_of_ne fun hh => hbP hh.symm).mpr hP
                · intro hmem
                  rcases List.mem_append.mp hmem with h1 | h1
                  · exact hNs h1
                  · exact hbN (List.mem_singleton.mp h1).symm
                · exact hNr
        · simp only [selLoopFuel, hre, Bool.false_eq_true, if_false, if_neg hk] at hNr
          exact absurd hNr hNs

/-- A candidate whose source collection is the empty string; with
`preferred_source = ""` Python's truthiness check disables the bias, so no
preference is actually applied. -/
def cPempty : Candidate :=
  { id := chars "p", text := chars "defrost heater replacement steps",
    distance := some 0, source_collection := [], keyword_bonus := 0 }

/-- A candidate identical to `cPempty` except for its source collection and
id, listed first in the pool. -/
def cNblog : Candidate :=
  { id := chars "n", text := chars "defrost heater replacement steps",
    distance := some 0, source_collection := chars "blogs", keyword_bonus := 0 }

/-- C7 counterexample: with `preferred_source = ""` — a string equal to
`cPempty`'s `source_collection` but falsy in Python — both candidates score
identically, the tie goes to the pool-order-first non-preferred candidate,
and with `top_k = 1` the preferred candidate does not appear in the output at
all, so it does not appear at a position no later than the non-preferred
one. -/
theorem C7_counterexample :
    cPempty.source_collection = [] ∧ cNblog.source_collection ≠ [] ∧
    cPempty.distance = cNblog.distance ∧ cPempty.text = cNblog.text ∧
    cPempty.keyword_bonus = cNblog.keyword_bonus ∧
    retrieveSelection simZero (some []) 1 [cNblog, cPempty] = [cNblog] ∧
    cPempty ∉ retrieveSelection simZero (some []) 1 [cNblog, cPempty] ∧
    cNblog ∈ retrieveSelection simZero (some []) 1 [cNblog, cPempty] := by
  have h1 : bestCand (mmrScore simZero (some []) []) [cNblog, cPempty] =
      some cNblog := by
    simp only [bestCand, bestAux]
    rw [if_neg]
    norm_num [mmrScore, baseScore, redundancy, maxQ, prefMatch, simZero, cNblog, cPempty]
  have hres : retrieveSelection simZero (some []) 1 [cNblog, cPempty] = [cNblog] := by
    have s1 := selLoopFuel_step simZero (some []) 1 1 [] [cNblog, cPempty] cNblog rfl
      (by decide) h1
    rw [List.erase_cons_head] at s1
    simp only [List.nil_append] at s1
    norm_num at s1
    have hk2 : ¬ ((1 : ℤ) < 1) := by omega
    simp only [retrieveSelection, List.isEmpty_cons, Bool.false_eq_true, if_false,
      List.length_cons, List.length_nil]
    norm_num
    rw [s1]
    simp [selLoopFuel, hk2]
  have hne : cPempty ≠ cNblog := fun h =>
    absurd (congrArg Candidate.id h) (by decide)
  refine ⟨rfl, by decide, rfl, rfl, rfl, hres, ?_, ?_⟩
  · rw [hres]
    simp [hne]
  · rw [hres]
    exact List.mem_singleton.mpr rfl

/-- C7 (amended): for a *non-empty* `preferred_source` equal to the preferred
candidate's `source_collection`, with two candidates agreeing on distance,
text and keyword bonus and differing only in `source_collection`, the
preferred candidate's base relevance score is strictly higher, and whenever
the non-preferred candidate appears in the output the preferred one appears
at an earlier position (no occurrence of the non-preferred candidate precedes
it).  With an empty preferred source Python truthiness disables the bias and
the guarantee fails. -/
theorem C7_preference_monotonic (sim : List Char → List Char → ℚ) (top_k : ℤ)
    (pool : List Candidate) (p : List Char) (cP cN : Candidate)
    (hp : p ≠ []) (hPmem : cP ∈ pool)
    (hdist : cP.distance = cN.distance) (htext : cP.text = cN.text)
    (hkb : cP.keyword_bonus = cN.keyword_bonus)
    (hPsrc : cP.source_collection = p) (hNsrc : cN.source_collection ≠ p) :
    baseScore (some p) cN < baseScore (some p) cP ∧
    (cN ∈ retrieveSelection sim (some p) top_k pool →
      ∃ l₁ l₂, retrieveSelection sim (some p) top_k pool = l₁ ++ cP :: l₂ ∧
        cN ∉ l₁) := by
  have hpe : p.isEmpty = false := by
    cases p with
    | nil => exact absurd rfl hp
    | cons a as => rfl
  have hmP : prefMatch (some p) cP = true := by
    simp [prefMatch, hpe, hPsrc]
  have hmN : prefMatch (some p) cN = false := by
    simp [prefMatch, hpe, hNsrc]
  have hbias : sourceBias (some p) = 1/10 := by
    simp [sourceBias, pyTruthy, hpe]
  have hbase : baseScore (some p) cN + 1/10 = baseScore (some p) cP := by
    simp only [baseScore, hdist, hkb, hmP, hmN, hbias, if_true, if_false,
      Bool.false_eq_true]
    ring
  have hdom : ∀ s, mmrScore sim (some p) s cN < mmrScore sim (some p) s cP := by
    intro s
    have hred : redundancy sim s cN = redundancy sim s cP := by
      simp [redundancy, htext]
    simp only [mmrScore, hred]
    linarith [hbase]
  refine ⟨by linarith [hbase], ?_⟩
  intro hNres
  cases pool with
  | nil => exact absurd hPmem (List.not_mem_nil cP)
  | cons c cs =>
      have hres : retrieveSelection sim (some p) top_k (c :: cs) =
          selLoopFuel sim (some p) top_k (c :: cs).length [] (c :: cs) := by
        simp [retrieveSelection]
      rw [hres] at hNres ⊢
      exact selLoop_pref_before sim (some p) top_k cP cN hdom (c :: cs).length []
        (c :: cs) hPmem (List.not_mem_nil cN) hNres

/-- The preferred-source twin from the repairs collection. -/
def cPrep : Candidate :=
  { id := chars "p2", text := chars "drain pump cleaning walkthrough",
    distance := some 0, source_collection := chars "repairs", keyword_bonus := 0 }

/-- The non-preferred twin from the blogs collection. -/
def cNblg : Candidate :=
  { id := chars "n2", text := chars "drain pump cleaning walkthrough",
    distance := some 0, source_collection := chars "blogs", keyword_bonus := 0 }

/-- C7 witness at a concrete pool with `preferred_source = "repairs"`. -/
theorem C7_preference_monotonic_witness :
    baseScore (some (chars "repairs")) cNblg <
      baseScore (some (chars "repairs")) cPrep ∧
    (cNblg ∈ retrieveSelection simZero (some (chars "repairs")) 2 [cPrep, cNblg] →
      ∃ l₁ l₂, retrieveSelection simZero (some (chars "repairs")) 2 [cPrep, cNblg] =
        l₁ ++ cPrep :: l₂ ∧ cNblg ∉ l₁) :=
  C7_preference_monotonic simZero 2 [cPrep, cNblg] (chars "repairs") cPrep cNblg
    (by decide) (List.mem_cons_self _ _) rfl rfl rfl rfl (by decide)

/-- A candidate with an absent distance. -/
def cMiss : Candidate :=
  { id := chars "m", text := chars "thermostat wiring overview",
    distance := none, source_collection := chars "blogs", keyword_bonus := 0 }

/-- A candidate with a present distance of `2` (the collaborator's distances
are only required to be non-negative, not bounded by `1`). -/
def cFar : Candidate :=
  { id := chars "f", text := chars "thermostat wiring overview",
    distance := some 2, source_collection := chars "blogs", keyword_bonus := 0 }

/-- C2 counterexample: the code substitutes the constant `1.0` — not a
maximal distance — for an absent distance, so a candidate with present
distance `2` scores strictly *below* the missing-distance candidate even
though keyword bonus and source-preference match are equal. -/
theorem C2_counterexample :
    cMiss.distance = none ∧ cFar.distance = some 2 ∧
    cMiss.keyword_bonus = cFar.keyword_bonus ∧
    prefMatch none cMiss = prefMatch none cFar ∧
    baseScore none cFar < baseScore none cMiss ∧
    ¬ baseScore none cMiss ≤ baseScore none cFar := by
  refine ⟨rfl, rfl, rfl, rfl, ?_, ?_⟩
  · norm_num [baseScore, cMiss, cFar, prefMatch]
  · norm_num [baseScore, cMiss, cFar, prefMatch]

/-- C2 (amended): an absent distance is treated as the fixed distance `1.0`,
so — holding keyword bonus and source-preference match equal — the
missing-distance candidate's base relevance score is at most that of every
candidate whose present distance is at most `1`; for distances above `1` the
inequality can reverse. -/
theorem C2_missing_distance (preferred : Option (List Char)) (c₁ c₂ : Candidate)
    (d : ℚ) (h1 : c₁.distance = none) (h2 : c₂.distance = some d) (hd : d ≤ 1)
    (hkb : c₁.keyword_bonus = c₂.keyword_bonus)
    (hp : prefMatch preferred c₁ = prefMatch preferred c₂) :
    baseScore preferred c₁ ≤ baseScore preferred c₂ := by
  simp only [baseScore, h1, h2, Option.getD_none, Option.getD_some, hkb, hp]
  have : -(1 : ℚ) ≤ -d := neg_le_neg hd
  linarith

/-- A candidate with a present distance of `1/2`. -/
def cNear : Candidate :=
  { id := chars "g", text := chars "thermostat wiring overview",
    distance := some (1/2), source_collection := chars "blogs", keyword_bonus := 0 }

/-- C2 witness: the missing-distance candidate scores at most the
distance-`1/2` candidate. -/
theorem C2_missing_distance_witness :
    baseScore none cMiss ≤ baseScore none cNear :=
  C2_missing_distance none cMiss cNear (1/2) rfl rfl (by norm_num) rfl rfl

end Retrieval
